import Mathlib

/-!
Verification of the locale-aware label-expression compiler of the
openstreetmap-americana style (file `src/js/language.js` of the repository,
provided as `src/unnamed/part_001`).

The JavaScript module builds MapLibre style-expression trees (plain JSON
arrays) that the external rendering engine evaluates per feature.  We embed:

* `JValue` — the JSON values the module manipulates (expression trees are
  JSON arrays whose head element is an operator name);
* the tree-building functions of the module (`replaceExpression`,
  `listValuesExpression`, `getLocalizedNameExpression`, `updateVariable`,
  `localizeLayers`, `getLocales`, `getLanguageFromURL`, …), translated
  one-to-one from the source;
* `evalF` — a fuel-indexed evaluator giving semantics to the fragment of the
  MapLibre expression language the generated trees use (`case`, `slice`,
  `index-of`, `concat`, `length`, `collator`, `let`/`var`, `coalesce`,
  `format`, `all`, `in`, `==`, `>=`, `+`, `-`).  Strings are modeled as
  sequences of Unicode scalar values (the claims under test involve no
  surrogate pairs, where JavaScript's UTF-16 indexing would differ).  Every
  number the module's generated expressions compute with is an integer
  (string indices and lengths), modeled as `Int`; the only non-integer
  numbers in the module are the two decimal literals `0.8` and `0.001`,
  which occur exclusively as `font-scale` style options inside `format`
  sections, are never evaluated, and are represented verbatim by the
  decimal-literal constructor `JValue.dec`.  Collator comparison is modeled as
  optional case folding and optional diacritic folding followed by equality,
  which matches ICU behaviour on the Latin-script data of the claims.
-/

/-- JSON values, the data the JavaScript module builds and rewrites.
MapLibre expressions are JSON arrays whose first element is the operator
name; a bare string or number in argument position is a literal. -/
inductive JValue where
  | str (s : String)
  | num (n : Int)
  | dec (mantissa : Int) (shift : Nat)
  | bool (b : Bool)
  | arr (elems : List JValue)
  | obj (fields : List (String × JValue))
deriving Repr

/-- Runtime values produced by evaluating a MapLibre expression. -/
inductive Value where
  | str (s : String)
  | num (n : Int)
  | bool (b : Bool)
  | null
  | collator (caseSensitive diacriticSensitive : Bool) (locale : String)
deriving Repr, DecidableEq

/-! ## String primitives used by the evaluator -/

/-- Index of the first occurrence of `n` in `l` (`0` for an empty `n`),
`none` when `n` does not occur. -/
def indexOfAux (l n : List Char) : Option Nat :=
  match l with
  | [] => if n.isPrefixOf ([] : List Char) then some 0 else none
  | c :: t => if n.isPrefixOf (c :: t) then some 0 else (indexOfAux t n).map (· + 1)

/-- JavaScript `String.prototype.indexOf` with a (clamped, in-range) start
index: the search is equivalent to searching the suffix and shifting. -/
def jsIndexOfChars (h n : List Char) (start : Nat) : Option Nat :=
  (indexOfAux (h.drop start) n).map (· + start)

/-- Normalization of a JavaScript `slice` index: negative indices count from
the end of the string, and indices are clamped to `[0, len]`. -/
def normSliceIdx (i : Int) (len : Nat) : Nat :=
  if i < 0 then (len + i).toNat else min i.toNat len

/-- Two-argument MapLibre `slice` on a string: the tail from the
(normalized) start index. -/
def strSlice2 (s : String) (qa : Int) : String :=
  (s.data.drop (normSliceIdx qa s.length)).asString

/-- Three-argument MapLibre `slice` on a string: the substring between the
two (normalized) indices. -/
def strSlice3 (s : String) (qa qb : Int) : String :=
  let a := normSliceIdx qa s.length
  let b := normSliceIdx qb s.length
  ((s.data.drop a).take (b - a)).asString

/-- MapLibre `index-of` on strings: the index of the first occurrence of
`n` in `h` at or after `q`, or `-1` when there is none. -/
def jsIndexOf (h n : String) (q : Int) : Int :=
  match jsIndexOfChars h.data n.data q.toNat with
  | some i => (i : Int)
  | none => -1

/-- Diacritic folding for the Latin-1 letters that occur in the data under
test; other characters are left unchanged. -/
def foldDiacriticChar (c : Char) : Char :=
  match c with
  | 'á' | 'à' | 'â' | 'ã' | 'ä' | 'å' => 'a'
  | 'é' | 'è' | 'ê' | 'ë' => 'e'
  | 'í' | 'ì' | 'î' | 'ï' => 'i'
  | 'ó' | 'ò' | 'ô' | 'õ' | 'ö' => 'o'
  | 'ú' | 'ù' | 'û' | 'ü' => 'u'
  | 'Á' | 'À' | 'Â' | 'Ã' | 'Ä' | 'Å' => 'A'
  | 'É' | 'È' | 'Ê' | 'Ë' => 'E'
  | 'Í' | 'Ì' | 'Î' | 'Ï' => 'I'
  | 'Ó' | 'Ò' | 'Ô' | 'Õ' | 'Ö' => 'O'
  | 'Ú' | 'Ù' | 'Û' | 'Ü' => 'U'
  | 'ç' => 'c' | 'Ç' => 'C'
  | 'ñ' => 'n' | 'Ñ' => 'N'
  | _ => c

/-- Case folding: ASCII lower-casing extended to the accented Latin-1
capitals of `foldDiacriticChar`. -/
def lowerChar (c : Char) : Char :=
  match c with
  | 'Á' => 'á' | 'À' => 'à' | 'Â' => 'â' | 'Ã' => 'ã' | 'Ä' => 'ä' | 'Å' => 'å'
  | 'É' => 'é' | 'È' => 'è' | 'Ê' => 'ê' | 'Ë' => 'ë'
  | 'Í' => 'í' | 'Ì' => 'ì' | 'Î' => 'î' | 'Ï' => 'ï'
  | 'Ó' => 'ó' | 'Ò' => 'ò' | 'Ô' => 'ô' | 'Õ' => 'õ' | 'Ö' => 'ö'
  | 'Ú' => 'ú' | 'Ù' => 'ù' | 'Û' => 'û' | 'Ü' => 'ü'
  | 'Ç' => 'ç' | 'Ñ' => 'ñ'
  | _ => c.toLower

/-- Diacritic folding lifted to strings. -/
def foldDiacritics (s : String) : String := (s.data.map foldDiacriticChar).asString

/-- Case folding lifted to strings. -/
def foldCase (s : String) : String := (s.data.map lowerChar).asString

/-- Collator string comparison: fold diacritics unless diacritic-sensitive,
fold case unless case-sensitive, then compare for equality. -/
def collatorEq (caseSensitive diacriticSensitive : Bool) (a b : String) : Bool :=
  let fold := fun (s : String) =>
    let s1 := if diacriticSensitive then s else foldDiacritics s
    if caseSensitive then s1 else foldCase s1
  fold a == fold b

/-- Reads a boolean field of a collator options object (default `false`). -/
def boolOpt (opts : List (String × JValue)) (key : String) : Bool :=
  match opts.lookup key with
  | some (.bool b) => b
  | _ => false

/-- Reads a string field of a collator options object (default `""`). -/
def strOpt (opts : List (String × JValue)) (key : String) : String :=
  match opts.lookup key with
  | some (.str s) => s
  | _ => ""

/-! ## The evaluator

Evaluation is structurally recursive on a fuel parameter so that it is
computable by the kernel; `EvalTo` below quantifies the fuel away.  The
evaluator threads an environment of `let`-bound variables and the feature's
property map (for `get`).  List-shaped work (the tail of a `case`, `let`,
`concat`, … form) is carried by `EvalJob` so that a single structurally
recursive function suffices. -/

/-- Work items of the evaluator: either a whole expression or the tail of a
variadic form being consumed left to right. -/
inductive EvalJob where
  | one (e : JValue)
  | letChain (es : List JValue)
  | caseChain (es : List JValue)
  | allChain (es : List JValue)
  | coalesceChain (es : List JValue)
  | concatChain (es : List JValue) (acc : String)
  | formatChain (es : List JValue) (acc : String)

/-- One evaluation layer: `recur` evaluates the sub-expressions.  Unsupported
forms and type errors evaluate to `none`. -/
def evalStep (recur : List (String × Value) → List (String × Value) → EvalJob → Option Value)
    (env props : List (String × Value)) (job : EvalJob) : Option Value :=
  match job with
  | .one e =>
    match e with
    | .str s => some (.str s)
    | .num n => some (.num n)
    | .dec _ _ => none
    | .bool b => some (.bool b)
    | .obj _ => none
    | .arr es =>
      match es with
      | [] => none
      | opE :: args =>
        match opE with
        | .str op =>
          if op = "get" then
            match args with
            | [.str prop] => some ((props.lookup prop).getD .null)
            | _ => none
          else if op = "var" then
            match args with
            | [.str name] => env.lookup name
            | _ => none
          else if op = "let" then recur env props (.letChain args)
          else if op = "case" then recur env props (.caseChain args)
          else if op = "all" then recur env props (.allChain args)
          else if op = "coalesce" then recur env props (.coalesceChain args)
          else if op = "concat" then recur env props (.concatChain args "")
          else if op = "format" then recur env props (.formatChain args "")
          else if op = "collator" then
            match args with
            | [.obj opts] =>
              some (.collator (boolOpt opts "case-sensitive")
                (boolOpt opts "diacritic-sensitive") (strOpt opts "locale"))
            | _ => none
          else if op = "==" then
            match args with
            | [a, b] =>
              match recur env props (.one a), recur env props (.one b) with
              | some va, some vb => some (.bool (va = vb))
              | _, _ => none
            | [a, b, c] =>
              match recur env props (.one a), recur env props (.one b),
                  recur env props (.one c) with
              | some (.str sa), some (.str sb), some (.collator cs ds _) =>
                some (.bool (collatorEq cs ds sa sb))
              | _, _, _ => none
            | _ => none
          else if op = ">=" then
            match args with
            | [a, b] =>
              match recur env props (.one a), recur env props (.one b) with
              | some (.num qa), some (.num qb) => some (.bool (qb ≤ qa))
              | _, _ => none
            | _ => none
          else if op = "+" then
            match args with
            | [a, b] =>
              match recur env props (.one a), recur env props (.one b) with
              | some (.num qa), some (.num qb) => some (.num (qa + qb))
              | _, _ => none
            | _ => none
          else if op = "-" then
            match args with
            | [a, b] =>
              match recur env props (.one a), recur env props (.one b) with
              | some (.num qa), some (.num qb) => some (.num (qa - qb))
              | _, _ => none
            | _ => none
          else if op = "length" then
            match args with
            | [a] =>
              match recur env props (.one a) with
              | some (.str s) => some (.num (s.length : Int))
              | _ => none
            | _ => none
          else if op = "in" then
            match args with
            | [a, b] =>
              match recur env props (.one a), recur env props (.one b) with
              | some (.str n), some (.str h) =>
                some (.bool (indexOfAux h.data n.data).isSome)
              | _, _ => none
            | _ => none
          else if op = "index-of" then
            match args with
            | [n, h, s] =>
              match recur env props (.one n), recur env props (.one h),
                  recur env props (.one s) with
              | some (.str ns), some (.str hs), some (.num q) =>
                some (.num (jsIndexOf hs ns q))
              | _, _, _ => none
            | _ => none
          else if op = "slice" then
            match args with
            | [t, a] =>
              match recur env props (.one t), recur env props (.one a) with
              | some (.str s), some (.num qa) => some (.str (strSlice2 s qa))
              | _, _ => none
            | [t, a, b] =>
              match recur env props (.one t), recur env props (.one a),
                  recur env props (.one b) with
              | some (.str s), some (.num qa), some (.num qb) =>
                some (.str (strSlice3 s qa qb))
              | _, _, _ => none
            | _ => none
          else none
        | _ => none
  | .letChain es =>
    match es with
    | [body] => recur env props (.one body)
    | .str name :: value :: rest =>
      match recur env props (.one value) with
      | some v => recur ((name, v) :: env) props (.letChain rest)
      | none => none
    | _ => none
  | .caseChain es =>
    match es with
    | [fb] => recur env props (.one fb)
    | c :: r :: rest =>
      match recur env props (.one c) with
      | some (.bool true) => recur env props (.one r)
      | some (.bool false) => recur env props (.caseChain rest)
      | _ => none
    | _ => none
  | .allChain es =>
    match es with
    | [] => some (.bool true)
    | a :: rest =>
      match recur env props (.one a) with
      | some (.bool true) => recur env props (.allChain rest)
      | some (.bool false) => some (.bool false)
      | _ => none
  | .coalesceChain es =>
    match es with
    | [] => some .null
    | a :: rest =>
      match recur env props (.one a) with
      | some .null => recur env props (.coalesceChain rest)
      | some v => some v
      | none => none
  | .concatChain es acc =>
    match es with
    | [] => some (.str acc)
    | a :: rest =>
      match recur env props (.one a) with
      | some (.str s) => recur env props (.concatChain rest (acc ++ s))
      | _ => none
  | .formatChain es acc =>
    match es with
    | [] => some (.str acc)
    | .obj _ :: rest => recur env props (.formatChain rest acc)
    | a :: rest =>
      match recur env props (.one a) with
      | some (.str s) => recur env props (.formatChain rest (acc ++ s))
      | _ => none

/-- Fuel-indexed evaluator: iterates `evalStep`, running out of fuel to
`none`.  Structural recursion on the fuel keeps it kernel-computable. -/
def evalF : Nat → List (String × Value) → List (String × Value) → EvalJob → Option Value
  | 0, _, _, _ => none
  | f + 1, env, props, job => evalStep (evalF f) env props job

/-- Evaluation with some sufficient amount of fuel. -/
def EvalTo (env props : List (String × Value)) (e : JValue) (v : Value) : Prop :=
  ∃ f, evalF f env props (.one e) = some v

/-! ## The module's tree-building functions, translated from the source -/

/-- JavaScript `String.prototype.split` with a one-character separator (the
only kind the module uses), structurally recursive so the kernel can
evaluate it; splitting the empty string yields `[""]`, like JavaScript. -/
def splitOnChar (sep : Char) : List Char → List (List Char)
  | [] => [[]]
  | c :: t =>
    match splitOnChar sep t with
    | [] => [[c]]
    | g :: gs => if c = sep then [] :: g :: gs else (c :: g) :: gs

/-- String-valued wrapper around `splitOnChar`. -/
def jsSplit (s : String) (sep : Char) : List String :=
  (splitOnChar sep s.data).map List.asString

/-- JavaScript `Array.prototype.join` with a separator string. -/
def joinSep (sep : String) : List String → String
  | [] => ""
  | [a] => a
  | a :: as => a ++ sep ++ joinSep sep as

/-- Minimal model of the browser's `URLSearchParams(query).get(key)` for
plain (not percent-encoded) queries: the value of the first `key=value`
pair, `""` for a key without `=`, `none` when the key is absent. -/
def urlParamsGet (query key : String) : Option String :=
  ((jsSplit query '&').filter (fun kv => kv ≠ "")).findSome? fun kv =>
    match jsSplit kv '=' with
    | [] => none
    | k :: rest => if k = key then some (joinSep "=" rest) else none

/-- Translation of `getLanguageFromURL(url)`; the URL is represented by its
hash fragment (including the leading `#`), the only part the code reads. -/
def getLanguageFromURL (urlHash : String) : Option String :=
  let language := urlParamsGet (urlHash.data.drop 1).asString "language"
  match language with
  | some "" => none
  | l => l

/-- Parent chain of a locale's components, as produced by the source's
`while` loop that repeatedly pops the last component: the loop visits the
component list longest first, so we recurse on the reversed list. -/
def parentsRev : List String → List String
  | [] => []
  | c :: rest => joinSep "-" (c :: rest).reverse :: parentsRev rest

/-- Progressively-less-specific variants of a split locale, most specific
first (`join` of all components, then of all but the last, …). -/
def parentsOf (components : List String) : List String :=
  parentsRev components.reverse

/-- Appends `parent` to the chain unless it is already present.  In the
source a separate `localeSet` guards the push, but that set always holds
exactly the elements already pushed to `locales`, so membership in the
chain itself is the same guard. -/
def pushIfNew (locales : List String) (parent : String) : List String :=
  if locales.contains parent then locales else locales ++ [parent]

/-- Loop body of `getLocales`: expands every user locale into its parent
chain, deduplicating across the whole output. -/
def expandLocales (userLocales : List String) : List String :=
  userLocales.foldl (fun acc locale => (parentsOf (jsSplit locale '-')).foldl pushIfNew acc) []

/-- Translation of `getLocales()`, with the browser inputs (`window.location`
hash and `navigator.languages`) passed as parameters. -/
def getLocales (urlHash : String) (navigatorLanguages : List String) : List String :=
  let parameter := (getLanguageFromURL urlHash).map (fun l => jsSplit l ',')
  let userLocales := parameter.getD navigatorLanguages
  expandLocales userLocales

/-- Translation of `getLocalizedNameExpression(locales, includesLegacyFields)`. -/
def getLocalizedNameExpression (locales : List String) (includesLegacyFields : Bool) : JValue :=
  let nameFields :=
    (locales.flatMap fun l =>
      ("name:" ++ l) ::
        (if includesLegacyFields && (l == "de" || l == "en") then ["name_" ++ l] else [])) ++
      ["name"]
  .arr (.str "coalesce" :: nameFields.map fun f => .arr [.str "get", .str f])

/-- Index of the first element of `es` that is the string `v` (JavaScript
`Array.prototype.indexOf`, whose strict equality against a string can only
match string elements). -/
def strIndexOfJ (es : List JValue) (v : String) : Option Nat :=
  match es with
  | [] => none
  | .str s :: rest => if s = v then some 0 else (strIndexOfJ rest v).map (· + 1)
  | _ :: rest => (strIndexOfJ rest v).map (· + 1)

/-- Translation of `updateVariable(letExpr, variable, value)`.  The source
mutates `letExpr[variableNameIndex + 1]` in place; we return the updated
tree.  A JavaScript assignment one past the end of the array appends. -/
def updateVariable (letExpr : JValue) (varName : String) (value : JValue) : JValue :=
  match letExpr with
  | .arr (.str s0 :: rest) =>
    if s0 = "let" then
      let es := JValue.str s0 :: rest
      match strIndexOfJ es varName with
      | some i =>
        if i % 2 = 1 then
          if i + 1 < es.length then .arr (es.set (i + 1) value)
          else .arr (es ++ [value])
        else letExpr
      | none => letExpr
    else letExpr
  | _ => letExpr

/-- Style layer, restricted to the fields `localizeLayers` reads:
`layer["source-layer"]` and `layer.layout["text-field"]` (absent `layout`
or `text-field` is modeled by `none`). -/
structure Layer where
  sourceLayer : Option String
  textField : Option JValue
deriving Repr

/-- Test of the JavaScript regular expression `/^en\b/`: the string starts
with `en` followed by a word boundary (end of string or a character outside
`[A-Za-z0-9_]`). -/
def regexEnBoundaryTest (s : String) : Bool :=
  match s.data with
  | c1 :: c2 :: t =>
    c1 = 'e' && c2 = 'n' &&
      (match t with
       | [] => true
       | c :: _ => !(c.isAlphanum || c = '_'))
  | _ => false

/-- Collator expression installed for `localizedCollator`.  `locales.headI`
models `locales[0]` (the style never localizes with an empty chain). -/
def localizedCollatorExpr (locales : List String) : JValue :=
  .arr [.str "collator",
    .obj [("case-sensitive", .bool false), ("diacritic-sensitive", .bool true),
      ("locale", .str locales.headI)]]

/-- Collator expression installed for `diacriticInsensitiveCollator`: the
source only performs diacritic folding when `/^en\b/` matches `locales[0]`. -/
def diacriticInsensitiveCollatorExpr (locales : List String) : JValue :=
  .arr [.str "collator",
    .obj [("case-sensitive", .bool false),
      ("diacritic-sensitive", .bool (!regexEnBoundaryTest locales.headI)),
      ("locale", .str locales.headI)]]

/-- Per-layer body of `localizeLayers`: the three `updateVariable` calls on
one `text-field` expression. -/
def localizeTextField (textField : JValue) (locales : List String)
    (sourceLayer : Option String) : JValue :=
  let localizedNameExpression := getLocalizedNameExpression locales false
  let legacyLocalizedNameExpression := getLocalizedNameExpression locales true
  let tf1 := updateVariable textField "localizedName"
    (if sourceLayer == some "transportation_name" then legacyLocalizedNameExpression
     else localizedNameExpression)
  let tf2 := updateVariable tf1 "localizedCollator" (localizedCollatorExpr locales)
  updateVariable tf2 "diacriticInsensitiveCollator" (diacriticInsensitiveCollatorExpr locales)

/-- Translation of `localizeLayers(layers, locales)`; layers without a
`text-field` are untouched. -/
def localizeLayers (layers : List Layer) (locales : List String) : List Layer :=
  layers.map fun layer =>
    match layer.textField with
    | some tf =>
      { layer with textField := some (localizeTextField tf locales layer.sourceLayer) }
    | none => layer

/-- Length of the needle as the source computes it: a string literal needle
has its length inlined as a number (`typeof needle === "object"` is false
for a string); a sub-expression needle gets a `length` call. -/
def needleLengthExpr (needle : JValue) : JValue :=
  match needle with
  | .str s => .num (s.length : Int)
  | _ => .arr [.str "length", needle]

/-- Recursion of `replaceExpression` over the (non-negative part of the)
replacement budget. -/
def replaceExpressionN (haystack needle replacement haystackStart : JValue) : Nat → JValue
  | 0 => .arr [.str "slice", haystack, haystackStart]
  | k + 1 =>
    let needleStart := JValue.arr [.str "index-of", needle, haystack, haystackStart]
    let needleLength : JValue := needleLengthExpr needle
    let needleEnd := JValue.arr [.str "+", needleStart, needleLength]
    .arr [.str "case",
      .arr [.str ">=", needleStart, .num 0],
      .arr [.str "concat",
        .arr [.str "slice", haystack, haystackStart, needleStart],
        replacement,
        replaceExpressionN haystack needle replacement needleEnd k],
      .arr [.str "slice", haystack, haystackStart]]

/-- Translation of `replaceExpression(haystack, needle, replacement,
haystackStart, numReplacements)`.  The source returns the unmodified tail
when `numReplacements <= 0` and recurses with `numReplacements - 1`
otherwise, which is exactly recursion on `numReplacements.toNat`; in the
source `typeof needle === "object"` distinguishes a string literal (whose
`length` is inlined as a number) from a sub-expression. -/
def replaceExpression (haystack needle replacement haystackStart : JValue)
    (numReplacements : Int) : JValue :=
  replaceExpressionN haystack needle replacement haystackStart numReplacements.toNat

/-- Translation of the constant `maxValueListLength = 9`. -/
def maxValueListLength : Nat := 9

/-- Translation of `listValuesExpression(valueList, separator)`. -/
def listValuesExpression (valueList separator : JValue) : JValue :=
  let maxSeparators : Int := (maxValueListLength : Int) - 1
  let objReplacementChar := "\x91￼\x92"
  let safeValueList :=
    replaceExpression valueList (.str ";;") (.str objReplacementChar) (.num 0) maxSeparators
  let prettyValueList :=
    replaceExpression (.arr [.str "var", .str "safeValueList"]) (.str ";") separator
      (.num 0) maxSeparators
  let prettySafeValueList :=
    replaceExpression (.arr [.str "var", .str "prettyValueList"]) (.str objReplacementChar)
      (.str ";") (.num 0) maxSeparators
  .arr [.str "let", .str "safeValueList", safeValueList,
    .arr [.str "let", .str "prettyValueList", prettyValueList, prettySafeValueList]]

/-- Translation of the constant `localizedName`. -/
def localizedName : JValue :=
  .arr [.str "let", .str "localizedName", .str "",
    listValuesExpression (.arr [.str "var", .str "localizedName"]) (.str "\n")]

/-- Translation of the constant `localizedNameInline`. -/
def localizedNameInline : JValue :=
  .arr [.str "let", .str "localizedName", .str "",
    listValuesExpression (.arr [.str "var", .str "localizedName"]) (.str " • ")]

/-- Translation of `startsWithExpression(target, candidatePrefix, collator)`;
`wordBoundaries[0]` is the one-character string `" "`. -/
def startsWithExpression (target candidate collator : JValue) : JValue :=
  let wordBoundaries := " ,"
  .arr [.str "all",
    .arr [.str "==",
      .arr [.str "slice", target, .num 0, .arr [.str "length", candidate]],
      candidate,
      collator],
    .arr [.str "in",
      .arr [.str "slice",
        .arr [.str "concat", target, .str " "],
        .arr [.str "length", candidate],
        .arr [.str "+", .arr [.str "length", candidate], .num 1]],
      .str wordBoundaries]]

/-- Translation of `overwritePrefixExpression(target, newPrefix)`. -/
def overwritePrefixExpression (target newPre : JValue) : JValue :=
  .arr [.str "concat", newPre, .arr [.str "slice", target, .arr [.str "length", newPre]]]

/-- Translation of `endsWithExpression(target, candidateSuffix, collator)`. -/
def endsWithExpression (target candidate collator : JValue) : JValue :=
  let wordBoundary := " "
  .arr [.str "all",
    .arr [.str "==",
      .arr [.str "slice", target,
        .arr [.str "-", .arr [.str "length", target], .arr [.str "length", candidate]]],
      candidate,
      collator],
    .arr [.str "==",
      .arr [.str "slice", target,
        .arr [.str "-",
          .arr [.str "-", .arr [.str "length", target], .arr [.str "length", candidate]],
          .num 1],
        .arr [.str "-", .arr [.str "length", target], .arr [.str "length", candidate]]],
      .str wordBoundary]]

/-- Translation of `overwriteSuffixExpression(target, newSuffix)`. -/
def overwriteSuffixExpression (target newSuf : JValue) : JValue :=
  .arr [.str "concat",
    .arr [.str "slice", target, .num 0,
      .arr [.str "-", .arr [.str "length", target], .arr [.str "length", newSuf]]],
    newSuf]

/-- Translation of the constant `localizedNameWithLocalGloss`. -/
def localizedNameWithLocalGloss : JValue :=
  .arr [.str "let",
    .str "localizedName", .str "",
    .str "localizedCollator", .arr [.str "collator", .obj []],
    .str "diacriticInsensitiveCollator", .arr [.str "collator", .obj []],
    .arr [.str "case",
      .arr [.str "==",
        .arr [.str "var", .str "localizedName"],
        .arr [.str "get", .str "name"],
        .arr [.str "var", .str "localizedCollator"]],
      .arr [.str "format",
        listValuesExpression (.arr [.str "var", .str "localizedName"]) (.str "\n")],
      startsWithExpression (.arr [.str "var", .str "localizedName"])
        (.arr [.str "get", .str "name"])
        (.arr [.str "var", .str "diacriticInsensitiveCollator"]),
      .arr [.str "format",
        overwritePrefixExpression (.arr [.str "var", .str "localizedName"])
          (listValuesExpression (.arr [.str "get", .str "name"]) (.str "\n"))],
      endsWithExpression (.arr [.str "var", .str "localizedName"])
        (.arr [.str "get", .str "name"])
        (.arr [.str "var", .str "diacriticInsensitiveCollator"]),
      .arr [.str "format",
        overwriteSuffixExpression (.arr [.str "var", .str "localizedName"])
          (listValuesExpression (.arr [.str "get", .str "name"]) (.str "\n"))],
      .arr [.str "format",
        .arr [.str "var", .str "localizedName"],
        .str "\n",
        .str "(​",
        .obj [("font-scale", .dec 8 1)],
        .arr [.str "concat",
          .arr [.str "slice", .arr [.str "var", .str "localizedName"], .num 0, .num 1],
          .str " "],
        .obj [("font-scale", .dec 1 3)],
        listValuesExpression (.arr [.str "get", .str "name"]) (.str " • "),
        .obj [("font-scale", .dec 8 1)],
        .arr [.str "concat", .str " ",
          .arr [.str "slice", .arr [.str "var", .str "localizedName"], .num 0, .num 1]],
        .obj [("font-scale", .dec 1 3)],
        .str "​)",
        .obj [("font-scale", .dec 8 1)]]]]

/-! ## Reference definitions for the specification side

These definitions state, independently of the expression trees, what the
generated expressions are supposed to compute; the theorems below relate
them to the evaluator. -/

/-- Bounded fuel version of the occurrence count (the fuel only needs to
exceed the haystack length). -/
def occCountF (n : List Char) : Nat → List Char → Nat
  | 0, _ => 0
  | fuel + 1, l =>
    match indexOfAux l n with
    | none => 0
    | some i => 1 + occCountF n fuel (l.drop (i + n.length))

/-- Number of non-overlapping occurrences of `n` in `l`, scanning left to
right (meaningful for non-empty `n`). -/
def occCount (l n : List Char) : Nat := occCountF n (l.length + 1) l

/-- Reference semantics of bounded replacement: replace up to `K` leftmost
non-overlapping occurrences of `n` by `r`, scanning left to right; the text
after the last replaced occurrence is kept verbatim. -/
def replaceUpTo (n r : List Char) : List Char → Nat → List Char
  | l, 0 => l
  | l, K + 1 =>
    match indexOfAux l n with
    | none => l
    | some i => l.take i ++ r ++ replaceUpTo n r (l.drop (i + n.length)) K

/-- Number of replacements `replaceUpTo` actually performs with budget `K`. -/
def replacedCount (n : List Char) : List Char → Nat → Nat
  | _, 0 => 0
  | l, K + 1 =>
    match indexOfAux l n with
    | none => 0
    | some i => 1 + replacedCount n (l.drop (i + n.length)) K

/-- Specification-side parent chain of one locale tag, written as in the
spec: every non-empty prefix of the hyphen-separated components, longest
(the tag itself) first. -/
def specParents (tag : String) : List String :=
  let comps := jsSplit tag '-'
  ((List.range comps.length).map fun i => joinSep "-" (comps.take (comps.length - i)))

/-- Specification-side locale expansion: for each tag in order, append each
of its parents to the output unless already present. -/
def specExpand (userLocales : List String) : List String :=
  userLocales.foldl
    (fun acc tag => (specParents tag).foldl
      (fun a p => if p ∈ a then a else a ++ [p]) acc) []

mutual
/-- Nesting depth of a JSON tree: leaves have depth `0`, an array or object
is one deeper than its deepest child. -/
def depth : JValue → Nat
  | .str _ => 0
  | .num _ => 0
  | .dec _ _ => 0
  | .bool _ => 0
  | .arr es => 1 + depthList es
  | .obj fs => 1 + depthObj fs
/-- Deepest element of a list of JSON trees. -/
def depthList : List JValue → Nat
  | [] => 0
  | e :: es => max (depth e) (depthList es)
/-- Deepest field value of a JSON object. -/
def depthObj : List (String × JValue) → Nat
  | [] => 0
  | (_, v) :: fs => max (depth v) (depthObj fs)
end

/-- Layer whose `text-field` is the bilingual name-with-gloss expression,
as the place layers of the style use it. -/
def glossLayer : Layer := { sourceLayer := some "place", textField := some localizedNameWithLocalGloss }

/-- Shape of a `text-field` template that pre-declares the three
localizable slots, in the order the style's constants declare them. -/
def canonicalTextField (v1 v2 v3 body : JValue) : JValue :=
  .arr [.str "let",
    .str "localizedName", v1,
    .str "localizedCollator", v2,
    .str "diacriticInsensitiveCollator", v3,
    body]

/-! ## Monotonicity and determinism of evaluation -/

/-- Unfolding equation for one fuel layer. -/
theorem evalF_succ (f : Nat) (env props : List (String × Value)) (job : EvalJob) :
    evalF (f + 1) env props job = evalStep (evalF f) env props job := rfl

/-- Evaluation steps are monotone in the recursive evaluator: anything a
weaker evaluator produces, a stronger one produces too. -/
theorem evalStep_mono {r₁ r₂ : List (String × Value) → List (String × Value) → EvalJob → Option Value}
    (hr : ∀ env props job v, r₁ env props job = some v → r₂ env props job = some v) :
    ∀ env props job v, evalStep r₁ env props job = some v → evalStep r₂ env props job = some v := by
  intro env props job v h
  cases job with
  | one e =>
    cases e with
    | str s => simpa [evalStep] using h
    | num n => simpa [evalStep] using h
    | dec m e => simp [evalStep] at h
    | bool b => simpa [evalStep] using h
    | obj fs => simp [evalStep] at h
    | arr es =>
      cases es with
      | nil => simp [evalStep] at h
      | cons opE args =>
        cases opE with
        | num n => simp [evalStep] at h
        | dec m e => simp [evalStep] at h
        | bool b => simp [evalStep] at h
        | arr es2 => simp [evalStep] at h
        | obj fs => simp [evalStep] at h
        | str op =>
          simp only [evalStep] at h ⊢
          by_cases h1 : op = "get"
          · rw [if_pos h1] at h ⊢; exact h
          rw [if_neg h1] at h ⊢
          by_cases h2 : op = "var"
          · rw [if_pos h2] at h ⊢; exact h
          rw [if_neg h2] at h ⊢
          by_cases h3 : op = "let"
          · rw [if_pos h3] at h ⊢; exact hr _ _ _ _ h
          rw [if_neg h3] at h ⊢
          by_cases h4 : op = "case"
          · rw [if_pos h4] at h ⊢; exact hr _ _ _ _ h
          rw [if_neg h4] at h ⊢
          by_cases h5 : op = "all"
          · rw [if_pos h5] at h ⊢; exact hr _ _ _ _ h
          rw [if_neg h5] at h ⊢
          by_cases h6 : op = "coalesce"
          · rw [if_pos h6] at h ⊢; exact hr _ _ _ _ h
          rw [if_neg h6] at h ⊢
          by_cases h7 : op = "concat"
          · rw [if_pos h7] at h ⊢; exact hr _ _ _ _ h
          rw [if_neg h7] at h ⊢
          by_cases h8 : op = "format"
          · rw [if_pos h8] at h ⊢; exact hr _ _ _ _ h
          rw [if_neg h8] at h ⊢
          by_cases h9 : op = "collator"
          · rw [if_pos h9] at h ⊢; exact h
          rw [if_neg h9] at h ⊢
          by_cases h10 : op = "=="
          · rw [if_pos h10] at h ⊢
            split at h
            · split at h
              · rename_i va vb heq1 heq2
                rw [hr _ _ _ _ heq1, hr _ _ _ _ heq2]
                exact h
              · simp at h
            · split at h
              · rename_i sa sb cs ds loc heq1 heq2 heq3
                rw [hr _ _ _ _ heq1, hr _ _ _ _ heq2, hr _ _ _ _ heq3]
                exact h
              · simp at h
            · simp at h
          rw [if_neg h10] at h ⊢
          by_cases h11 : op = ">="
          · rw [if_pos h11] at h ⊢
            split at h
            · split at h
              · rename_i qa qb heq1 heq2
                rw [hr _ _ _ _ heq1, hr _ _ _ _ heq2]
                exact h
              · simp at h
            · simp at h
          rw [if_neg h11] at h ⊢
          by_cases h12 : op = "+"
          · rw [if_pos h12] at h ⊢
            split at h
            · split at h
              · rename_i qa qb heq1 heq2
                rw [hr _ _ _ _ heq1, hr _ _ _ _ heq2]
                exact h
              · simp at h
            · simp at h
          rw [if_neg h12] at h ⊢
          by_cases h13 : op = "-"
          · rw [if_pos h13] at h ⊢
            split at h
            · split at h
              · rename_i qa qb heq1 heq2
                rw [hr _ _ _ _ heq1, hr _ _ _ _ heq2]
                exact h
              · simp at h
            · simp at h
          rw [if_neg h13] at h ⊢
          by_cases h14 : op = "length"
          · rw [if_pos h14] at h ⊢
            split at h
            · split at h
              · rename_i s heq1
                rw [hr _ _ _ _ heq1]
                exact h
              · simp at h
            · simp at h
          rw [if_neg h14] at h ⊢
          by_cases h15 : op = "in"
          · rw [if_pos h15] at h ⊢
            split at h
            · split at h
              · rename_i n hh heq1 heq2
                rw [hr _ _ _ _ heq1, hr _ _ _ _ heq2]
                exact h
              · simp at h
            · simp at h
          rw [if_neg h15] at h ⊢
          by_cases h16 : op = "index-of"
          · rw [if_pos h16] at h ⊢
            split at h
            · split at h
              · rename_i ns hs q heq1 heq2 heq3
                rw [hr _ _ _ _ heq1, hr _ _ _ _ heq2, hr _ _ _ _ heq3]
                exact h
              · simp at h
            · simp at h
          rw [if_neg h16] at h ⊢
          by_cases h17 : op = "slice"
          · rw [if_pos h17] at h ⊢
            split at h
            · split at h
              · rename_i s qa heq1 heq2
                rw [hr _ _ _ _ heq1, hr _ _ _ _ heq2]
                exact h
              · simp at h
            · split at h
              · rename_i s qa qb heq1 heq2 heq3
                rw [hr _ _ _ _ heq1, hr _ _ _ _ heq2, hr _ _ _ _ heq3]
                exact h
              · simp at h
            · simp at h
          rw [if_neg h17] at h ⊢
          simp at h
  | letChain es =>
    simp only [evalStep] at h ⊢
    split at h
    · exact hr _ _ _ _ h
    · split at h
      · rename_i w heq
        rw [hr _ _ _ _ heq]
        exact hr _ _ _ _ h
      · simp at h
    · simp at h
  | caseChain es =>
    simp only [evalStep] at h ⊢
    split at h
    · exact hr _ _ _ _ h
    · split at h
      · rename_i heq
        rw [hr _ _ _ _ heq]
        exact hr _ _ _ _ h
      · rename_i heq
        rw [hr _ _ _ _ heq]
        exact hr _ _ _ _ h
      · simp at h
    · simp at h
  | allChain es =>
    simp only [evalStep] at h ⊢
    split at h
    · exact h
    · split at h
      · rename_i heq
        rw [hr _ _ _ _ heq]
        exact hr _ _ _ _ h
      · rename_i heq
        rw [hr _ _ _ _ heq]
        exact h
      · simp at h
  | coalesceChain es =>
    simp only [evalStep] at h ⊢
    split at h
    · exact h
    · split at h
      · rename_i heq
        rw [hr _ _ _ _ heq]
        exact hr _ _ _ _ h
      · rename_i w hne heq
        rw [hr _ _ _ _ heq]
        cases w <;> first | exact absurd rfl hne | exact h
      · simp at h
  | concatChain es acc =>
    simp only [evalStep] at h ⊢
    split at h
    · exact h
    · split at h
      · rename_i s heq
        rw [hr _ _ _ _ heq]
        exact hr _ _ _ _ h
      · simp at h
  | formatChain es acc =>
    simp only [evalStep] at h ⊢
    split at h
    · exact h
    · exact hr _ _ _ _ h
    · split at h
      · rename_i s heq
        rw [hr _ _ _ _ heq]
        exact hr _ _ _ _ h
      · simp at h

/-- More fuel never changes a successful evaluation result. -/
theorem evalF_mono : ∀ (f g : Nat), f ≤ g → ∀ env props job v,
    evalF f env props job = some v → evalF g env props job = some v := by
  intro f
  induction f with
  | zero => intro g _ env props job v h; simp [evalF] at h
  | succ f ih =>
    intro g hg env props job v h
    obtain ⟨g, rfl⟩ : ∃ g', g = g' + 1 := ⟨g - 1, by omega⟩
    rw [evalF_succ] at h ⊢
    exact evalStep_mono (fun e p j w => ih g (by omega) e p j w) env props job v h

/-- Evaluation results are unique. -/
theorem evalTo_determ {env props : List (String × Value)} {e : JValue} {v w : Value}
    (hv : EvalTo env props e v) (hw : EvalTo env props e w) : v = w := by
  obtain ⟨f1, h1⟩ := hv
  obtain ⟨f2, h2⟩ := hw
  have h1' := evalF_mono f1 (f1 + f2) (by omega) _ _ _ _ h1
  have h2' := evalF_mono f2 (f1 + f2) (by omega) _ _ _ _ h2
  rw [h1'] at h2'
  exact Option.some_inj.mp h2'

/-! ## Introduction lemmas for `EvalTo` -/

/-- String literals evaluate to themselves. -/
theorem evalTo_str {env props : List (String × Value)} (s : String) :
    EvalTo env props (.str s) (.str s) := ⟨1, rfl⟩

/-- Number literals evaluate to themselves. -/
theorem evalTo_num {env props : List (String × Value)} (n : Int) :
    EvalTo env props (.num n) (.num n) := ⟨1, rfl⟩

/-- Evaluation of a three-argument `index-of` call. -/
theorem evalTo_indexOf {env props : List (String × Value)} {nE hE sE : JValue}
    {ns hs : String} {q : Int}
    (hn : EvalTo env props nE (.str ns)) (hh : EvalTo env props hE (.str hs))
    (hq : EvalTo env props sE (.num q)) :
    EvalTo env props (.arr [.str "index-of", nE, hE, sE]) (.num (jsIndexOf hs ns q)) := by
  obtain ⟨f1, h1⟩ := hn
  obtain ⟨f2, h2⟩ := hh
  obtain ⟨f3, h3⟩ := hq
  refine ⟨(f1 + f2 + f3) + 1, ?_⟩
  have e1 := evalF_mono f1 (f1 + f2 + f3) (by omega) _ _ _ _ h1
  have e2 := evalF_mono f2 (f1 + f2 + f3) (by omega) _ _ _ _ h2
  have e3 := evalF_mono f3 (f1 + f2 + f3) (by omega) _ _ _ _ h3
  rw [evalF_succ]
  simp [evalStep, e1, e2, e3]

/-- Evaluation of a two-argument `slice` call. -/
theorem evalTo_slice2 {env props : List (String × Value)} {tE aE : JValue}
    {ts : String} {qa : Int}
    (ht : EvalTo env props tE (.str ts)) (ha : EvalTo env props aE (.num qa)) :
    EvalTo env props (.arr [.str "slice", tE, aE]) (.str (strSlice2 ts qa)) := by
  obtain ⟨f1, h1⟩ := ht
  obtain ⟨f2, h2⟩ := ha
  refine ⟨(f1 + f2) + 1, ?_⟩
  have e1 := evalF_mono f1 (f1 + f2) (by omega) _ _ _ _ h1
  have e2 := evalF_mono f2 (f1 + f2) (by omega) _ _ _ _ h2
  rw [evalF_succ]
  simp [evalStep, e1, e2]

/-- Evaluation of a three-argument `slice` call. -/
theorem evalTo_slice3 {env props : List (String × Value)} {tE aE bE : JValue}
    {ts : String} {qa qb : Int}
    (ht : EvalTo env props tE (.str ts)) (ha : EvalTo env props aE (.num qa))
    (hb : EvalTo env props bE (.num qb)) :
    EvalTo env props (.arr [.str "slice", tE, aE, bE]) (.str (strSlice3 ts qa qb)) := by
  obtain ⟨f1, h1⟩ := ht
  obtain ⟨f2, h2⟩ := ha
  obtain ⟨f3, h3⟩ := hb
  refine ⟨(f1 + f2 + f3) + 1, ?_⟩
  have e1 := evalF_mono f1 (f1 + f2 + f3) (by omega) _ _ _ _ h1
  have e2 := evalF_mono f2 (f1 + f2 + f3) (by omega) _ _ _ _ h2
  have e3 := evalF_mono f3 (f1 + f2 + f3) (by omega) _ _ _ _ h3
  rw [evalF_succ]
  simp [evalStep, e1, e2, e3]

/-- Evaluation of a binary `+` call. -/
theorem evalTo_plus {env props : List (String × Value)} {aE bE : JValue} {qa qb : Int}
    (ha : EvalTo env props aE (.num qa)) (hb : EvalTo env props bE (.num qb)) :
    EvalTo env props (.arr [.str "+", aE, bE]) (.num (qa + qb)) := by
  obtain ⟨f1, h1⟩ := ha
  obtain ⟨f2, h2⟩ := hb
  refine ⟨(f1 + f2) + 1, ?_⟩
  have e1 := evalF_mono f1 (f1 + f2) (by omega) _ _ _ _ h1
  have e2 := evalF_mono f2 (f1 + f2) (by omega) _ _ _ _ h2
  rw [evalF_succ]
  simp [evalStep, e1, e2]

/-- Evaluation of a binary `>=` call. -/
theorem evalTo_ge {env props : List (String × Value)} {aE bE : JValue} {qa qb : Int}
    (ha : EvalTo env props aE (.num qa)) (hb : EvalTo env props bE (.num qb)) :
    EvalTo env props (.arr [.str ">=", aE, bE]) (.bool (decide (qb ≤ qa))) := by
  obtain ⟨f1, h1⟩ := ha
  obtain ⟨f2, h2⟩ := hb
  refine ⟨(f1 + f2) + 1, ?_⟩
  have e1 := evalF_mono f1 (f1 + f2) (by omega) _ _ _ _ h1
  have e2 := evalF_mono f2 (f1 + f2) (by omega) _ _ _ _ h2
  rw [evalF_succ]
  simp [evalStep, e1, e2]

/-- Evaluation of a three-argument `concat` call. -/
theorem evalTo_concat3 {env props : List (String × Value)} {aE bE cE : JValue}
    {s1 s2 s3 : String}
    (ha : EvalTo env props aE (.str s1)) (hb : EvalTo env props bE (.str s2))
    (hc : EvalTo env props cE (.str s3)) :
    EvalTo env props (.arr [.str "concat", aE, bE, cE]) (.str ("" ++ s1 ++ s2 ++ s3)) := by
  obtain ⟨f1, h1⟩ := ha
  obtain ⟨f2, h2⟩ := hb
  obtain ⟨f3, h3⟩ := hc
  refine ⟨(f1 + f2 + f3 + 4) + 1, ?_⟩
  have e1 := evalF_mono f1 (f1 + f2 + f3 + 3) (by omega) _ _ _ _ h1
  have e2 := evalF_mono f2 (f1 + f2 + f3 + 2) (by omega) _ _ _ _ h2
  have e3 := evalF_mono f3 (f1 + f2 + f3 + 1) (by omega) _ _ _ _ h3
  rw [evalF_succ]
  simp [evalStep]
  rw [show f1 + f2 + f3 + 4 = (f1 + f2 + f3 + 3) + 1 from rfl, evalF_succ]
  simp [evalStep, e1]
  rw [show f1 + f2 + f3 + 3 = (f1 + f2 + f3 + 2) + 1 from rfl, evalF_succ]
  simp [evalStep, e2]
  rw [show f1 + f2 + f3 + 2 = (f1 + f2 + f3 + 1) + 1 from rfl, evalF_succ]
  simp [evalStep, e3]
  rw [show f1 + f2 + f3 + 1 = (f1 + f2 + f3) + 1 from rfl, evalF_succ]
  simp [evalStep]

/-- Evaluation of a one-pair `case` call whose condition holds. -/
theorem evalTo_case3_true {env props : List (String × Value)} {cond r fb : JValue} {v : Value}
    (hc : EvalTo env props cond (.bool true)) (hr : EvalTo env props r v) :
    EvalTo env props (.arr [.str "case", cond, r, fb]) v := by
  obtain ⟨f1, h1⟩ := hc
  obtain ⟨f2, h2⟩ := hr
  refine ⟨(f1 + f2 + 1) + 1, ?_⟩
  have e1 := evalF_mono f1 (f1 + f2) (by omega) _ _ _ _ h1
  have e2 := evalF_mono f2 (f1 + f2) (by omega) _ _ _ _ h2
  rw [evalF_succ]
  simp [evalStep]
  rw [show f1 + f2 + 1 = (f1 + f2) + 1 from rfl, evalF_succ]
  simp [evalStep, e1, e2]

/-- Evaluation of a one-pair `case` call whose condition fails. -/
theorem evalTo_case3_false {env props : List (String × Value)} {cond r fb : JValue} {v : Value}
    (hc : EvalTo env props cond (.bool false)) (hfb : EvalTo env props fb v) :
    EvalTo env props (.arr [.str "case", cond, r, fb]) v := by
  obtain ⟨f1, h1⟩ := hc
  obtain ⟨f2, h2⟩ := hfb
  refine ⟨(f1 + f2 + 2) + 1, ?_⟩
  have e1 := evalF_mono f1 (f1 + f2 + 1) (by omega) _ _ _ _ h1
  have e2 := evalF_mono f2 (f1 + f2) (by omega) _ _ _ _ h2
  rw [evalF_succ]
  simp [evalStep]
  rw [show f1 + f2 + 2 = (f1 + f2 + 1) + 1 from rfl, evalF_succ]
  simp [evalStep, e1]
  rw [show f1 + f2 + 1 = (f1 + f2) + 1 from rfl, evalF_succ]
  simp [evalStep, e2]

/-! ## Correctness of the bounded string replacer (C1) -/

theorem indexOfAux_le {l n : List Char} {j : Nat} (h : indexOfAux l n = some j) :
    j + n.length ≤ l.length := by
  induction l generalizing j with
  | nil =>
    simp only [indexOfAux] at h
    split at h
    · rename_i hp
      obtain rfl : 0 = j := by simpa using h
      have : n = [] := by simpa using List.isPrefixOf_iff_prefix.mp hp
      simp [this]
    · simp at h
  | cons c t ih =>
    simp only [indexOfAux] at h
    split at h
    · rename_i hp
      obtain rfl : 0 = j := by simpa using h
      have := (List.isPrefixOf_iff_prefix.mp hp).length_le
      simpa using this
    · simp only [Option.map_eq_some'] at h
      obtain ⟨j', hj', rfl⟩ := h
      have := ih hj'
      simp only [List.length_cons]
      omega

theorem occCountF_congr {n : List Char} (hn : n ≠ []) :
    ∀ f1 f2 l, l.length < f1 → l.length < f2 → occCountF n f1 l = occCountF n f2 l := by
  intro f1
  induction f1 with
  | zero => intro f2 l h1 h2; omega
  | succ f1 ih =>
    intro f2 l h1 h2
    obtain ⟨f2, rfl⟩ : ∃ g, f2 = g + 1 := ⟨f2 - 1, by omega⟩
    cases hocc : indexOfAux l n with
    | none => simp [occCountF, hocc]
    | some i =>
      have hb := indexOfAux_le hocc
      have hlen : (l.drop (i + n.length)).length < l.length := by
        have : 1 ≤ n.length := by cases n with | nil => exact absurd rfl hn | cons a b => simp
        simp only [List.length_drop]
        omega
      simp only [occCountF, hocc]
      rw [ih f2 _ (by omega) (by omega)]

theorem occCount_none {l n : List Char} (h : indexOfAux l n = none) : occCount l n = 0 := by
  simp [occCount, occCountF, h]

theorem occCount_succ {l n : List Char} {i : Nat} (hn : n ≠ []) (h : indexOfAux l n = some i) :
    occCount l n = 1 + occCount (l.drop (i + n.length)) n := by
  have hb := indexOfAux_le h
  have h1 : 1 ≤ n.length := by cases n with | nil => exact absurd rfl hn | cons a b => simp
  have e1 : occCount l n = 1 + occCountF n l.length (l.drop (i + n.length)) := by
    simp [occCount, occCountF, h]
  rw [e1, occCountF_congr hn l.length ((l.drop (i + n.length)).length + 1) _
    (by simp only [List.length_drop]; omega) (by omega)]
  rfl

theorem replacedCount_eq_min {n : List Char} (hn : n ≠ []) :
    ∀ (K : Nat) (l : List Char), replacedCount n l K = min (occCount l n) K := by
  intro K
  induction K with
  | zero => intro l; simp [replacedCount]
  | succ K ih =>
    intro l
    cases hocc : indexOfAux l n with
    | none => simp [replacedCount, hocc, occCount_none hocc]
    | some i =>
      simp only [replacedCount, hocc]
      rw [ih, occCount_succ hn hocc]
      omega

theorem asString_append (a b : List Char) : (a ++ b).asString = a.asString ++ b.asString := rfl

theorem empty_append_str (s : String) : "" ++ s = s := by
  cases s
  rfl

theorem data_asString (s : String) : s.data.asString = s := rfl

theorem strSlice2_nat (H : String) (s : Nat) (hs : s ≤ H.data.length) :
    strSlice2 H (s : Int) = (H.data.drop s).asString := by
  have h0 : ¬((s : Int) < 0) := by omega
  simp only [strSlice2, normSliceIdx, h0, if_false, Int.toNat_natCast, String.length]
  rw [Nat.min_eq_left hs]

theorem strSlice3_nat (H : String) (s j : Nat) (hs : j + s ≤ H.data.length) :
    strSlice3 H (s : Int) ((j + s : Nat) : Int) = ((H.data.drop s).take j).asString := by
  have h0 : ¬((s : Int) < 0) := by omega
  have h1 : ¬(((j + s : Nat) : Int) < 0) := by omega
  simp only [strSlice3, normSliceIdx, h0, h1, if_false, Int.toNat_natCast, String.length]
  rw [Nat.min_eq_left hs, Nat.min_eq_left (show s ≤ H.data.length by omega)]
  have he : j + s - s = j := by omega
  rw [he]

theorem replaceExpressionN_zero (h n r sE : JValue) :
    replaceExpressionN h n r sE 0 = .arr [.str "slice", h, sE] := rfl

theorem replaceExpressionN_succ_str (h r sE : JValue) (N : String) (K : Nat) :
    replaceExpressionN h (.str N) r sE (K + 1) =
      .arr [.str "case",
        .arr [.str ">=", .arr [.str "index-of", .str N, h, sE], .num 0],
        .arr [.str "concat",
          .arr [.str "slice", h, sE, .arr [.str "index-of", .str N, h, sE]],
          r,
          replaceExpressionN h (.str N) r
            (.arr [.str "+", .arr [.str "index-of", .str N, h, sE],
              .num (N.length : Int)]) K],
        .arr [.str "slice", h, sE]] := rfl

theorem replaceExpressionN_eval (env props : List (String × Value)) (H N R : String) :
    ∀ (K : Nat) (sE : JValue) (s : Nat), s ≤ H.data.length →
      EvalTo env props sE (.num (s : Int)) →
      EvalTo env props (replaceExpressionN (.str H) (.str N) (.str R) sE K)
        (.str (replaceUpTo N.data R.data (H.data.drop s) K).asString) := by
  intro K
  induction K with
  | zero =>
    intro sE s hs hsE
    have h := evalTo_slice2 (evalTo_str H) hsE
    rw [strSlice2_nat H s hs] at h
    simpa [replaceExpressionN_zero, replaceUpTo] using h
  | succ K ih =>
    intro sE s hs hsE
    have hNl : N.length = N.data.length := rfl
    have hidx := evalTo_indexOf (evalTo_str N) (evalTo_str H) hsE
    cases hocc : indexOfAux (H.data.drop s) N.data with
    | none =>
      have hjs : jsIndexOf H N (s : Int) = -1 := by
        simp [jsIndexOf, jsIndexOfChars, hocc]
      rw [hjs] at hidx
      have hcond := evalTo_ge hidx (evalTo_num 0)
      rw [show (decide ((0 : Int) ≤ -1)) = false from by decide] at hcond
      have hAsIs := evalTo_slice2 (evalTo_str H) hsE
      rw [strSlice2_nat H s hs] at hAsIs
      rw [replaceExpressionN_succ_str,
        show replaceUpTo N.data R.data (H.data.drop s) (K + 1) = H.data.drop s from by
          simp [replaceUpTo, hocc]]
      exact evalTo_case3_false hcond hAsIs
    | some j =>
      have hb := indexOfAux_le hocc
      have hdl : (H.data.drop s).length = H.data.length - s := by simp
      have hjs : jsIndexOf H N (s : Int) = ((j + s : Nat) : Int) := by
        simp [jsIndexOf, jsIndexOfChars, hocc]
      rw [hjs] at hidx
      have hcond := evalTo_ge hidx (evalTo_num 0)
      rw [show (decide ((0 : Int) ≤ ((j + s : Nat) : Int))) = true from by
        rw [decide_eq_true_eq]; omega] at hcond
      have hpre := evalTo_slice3 (evalTo_str H) hsE hidx
      rw [strSlice3_nat H s j (by omega)] at hpre
      have hplus := evalTo_plus hidx (evalTo_num (N.length : Int))
      rw [show ((j + s : Nat) : Int) + (N.length : Int) = ((s + (j + N.data.length) : Nat) : Int) from by
        push_cast [hNl]; ring] at hplus
      have hrec := ih _ (s + (j + N.data.length)) (by omega) hplus
      have hconcat := evalTo_concat3 hpre (evalTo_str R) hrec
      have hval : ("" ++ ((H.data.drop s).take j).asString ++ R ++
          (replaceUpTo N.data R.data (H.data.drop (s + (j + N.data.length))) K).asString)
          = (replaceUpTo N.data R.data (H.data.drop s) (K + 1)).asString := by
        simp only [replaceUpTo, hocc]
        simp only [empty_append_str, List.drop_drop, asString_append, data_asString]
      rw [replaceExpressionN_succ_str, ← hval]
      exact evalTo_case3_true hcond hconcat

/-- C1: for every haystack `H`, non-empty literal needle `N`, replacement
`R`, start offset `0` and budget `K ≥ 0`, the expression produced by
`replaceExpression` evaluates to `H` with exactly `min(occurrence count, K)`
leftmost non-overlapping occurrences of `N` replaced by `R`, scanning left
to right: the evaluation result is `replaceUpTo`, whose recursion replaces
the leftmost occurrence and continues just after it (so the text after the
last replaced occurrence — in particular after the `K`-th when `K` is less
than the occurrence count — is kept verbatim, and budget `0` returns the
unmodified tail), and the number of replacements it performs is exactly
`min (occCount H N) K`. -/
theorem c1_replaceExpression_bounded (env props : List (String × Value))
    (H N R : String) (K : Nat) (hN : N ≠ "") :
    EvalTo env props (replaceExpression (.str H) (.str N) (.str R) (.num 0) (K : Int))
      (.str (replaceUpTo N.data R.data H.data K).asString)
    ∧ replacedCount N.data H.data K = min (occCount H.data N.data) K := by
  have hn : N.data ≠ [] := by
    intro hd
    apply hN
    cases N
    simp only at hd
    rw [hd]
  constructor
  · have h := replaceExpressionN_eval env props H N R K (.num 0) 0 (by omega)
      (by simpa using evalTo_num 0)
    simpa [replaceExpression, Int.toNat_natCast] using h
  · exact replacedCount_eq_min hn K H.data

/-- Witness for C1: replacing up to 2 of the 3 semicolons of `"a;b;c;d"`
with `" / "` yields `"a / b / c;d"`, and the replacement count is
`min 3 2 = 2`. -/
theorem c1_replaceExpression_bounded_witness :
    EvalTo [] [] (replaceExpression (.str "a;b;c;d") (.str ";") (.str " / ") (.num 0)
        ((2 : Nat) : Int))
      (.str "a / b / c;d")
    ∧ replacedCount ";".data "a;b;c;d".data 2 = min (occCount "a;b;c;d".data ";".data) 2 := by
  have h := c1_replaceExpression_bounded [] [] "a;b;c;d" ";" " / " 2 (by decide)
  exact ⟨h.1, h.2⟩

/-! ## Locale-chain expansion (C2) and the delimiter formatter example (C4) -/

theorem pushIfNew_eq (acc : List String) (p : String) :
    pushIfNew acc p = if p ∈ acc then acc else acc ++ [p] := by
  simp [pushIfNew, List.contains, List.elem_iff]

theorem pushIfNew_nodup {acc : List String} (h : acc.Nodup) (p : String) :
    (pushIfNew acc p).Nodup := by
  rw [pushIfNew_eq]
  split
  · exact h
  · rename_i hp
    simp [List.nodup_append, h, hp]

theorem foldl_pushIfNew_nodup (ps : List String) :
    ∀ acc : List String, acc.Nodup → (ps.foldl pushIfNew acc).Nodup := by
  induction ps with
  | nil => intro acc h; exact h
  | cons p ps ih => intro acc h; exact ih _ (pushIfNew_nodup h p)

theorem parentsRev_eq (rs : List String) :
    parentsRev rs = (List.range rs.length).map
      (fun i => joinSep "-" (rs.reverse.take (rs.length - i))) := by
  induction rs with
  | nil => simp [parentsRev]
  | cons c rest ih =>
    simp only [parentsRev, List.length_cons, List.range_succ_eq_map, List.map_cons, List.map_map]
    congr 1
    · rw [Nat.sub_zero, show rest.length + 1 = (c :: rest).reverse.length from by simp,
        List.take_length]
    · rw [ih]
      apply List.map_congr_left
      intro i hi
      simp only [List.mem_range] at hi
      simp only [Function.comp_apply, List.reverse_cons]
      rw [List.take_append_of_le_length (by simp only [List.length_reverse]; omega)]
      have he : rest.length + 1 - (i + 1) = rest.length - i := by omega
      rw [he]

theorem parentsOf_eq_specParents (tag : String) :
    parentsOf (jsSplit tag '-') = specParents tag := by
  simp only [parentsOf, specParents, parentsRev_eq, List.length_reverse, List.reverse_reverse]

theorem expandLocales_eq_specExpand (us : List String) : expandLocales us = specExpand us := by
  have hpush : pushIfNew = (fun (a : List String) (p : String) => if p ∈ a then a else a ++ [p]) := by
    funext a p
    exact pushIfNew_eq a p
  have hfun : (fun (acc : List String) (locale : String) =>
      (parentsOf (jsSplit locale '-')).foldl pushIfNew acc)
      = (fun acc tag => (specParents tag).foldl (fun a p => if p ∈ a then a else a ++ [p]) acc) := by
    funext acc tag
    rw [parentsOf_eq_specParents, hpush]
  simp only [expandLocales, specExpand]
  rw [hfun]

theorem expandLocales_nodup_aux (us : List String) :
    ∀ acc : List String, acc.Nodup →
      (us.foldl (fun acc locale => (parentsOf (jsSplit locale '-')).foldl pushIfNew acc) acc).Nodup := by
  induction us with
  | nil => intro acc h; exact h
  | cons u us ih => intro acc h; exact ih _ (foldl_pushIfNew_nodup _ _ h)

/-- C2: `getLocales` expands each base-list tag, in order, into the tag
followed by its progressively-less-specific parents (dropping the last
hyphen-delimited component each time), appending a candidate only if not
already present: the loop is exactly the spec-side `specExpand` (written
with prefix-lists and membership), the resulting chain never repeats a tag,
and the base list `["zh-Hant-TW"]` — here also produced from the URL
override — yields exactly `["zh-Hant-TW", "zh-Hant", "zh"]`. -/
theorem c2_locale_expansion :
    (∀ userLocales : List String, expandLocales userLocales = specExpand userLocales)
    ∧ (∀ userLocales : List String, (expandLocales userLocales).Nodup)
    ∧ getLocales "#language=zh-Hant-TW" ["en-US"] = ["zh-Hant-TW", "zh-Hant", "zh"]
    ∧ expandLocales ["zh-Hant-TW"] = ["zh-Hant-TW", "zh-Hant", "zh"] := by
  refine ⟨expandLocales_eq_specExpand, ?_, by decide, by decide⟩
  intro us
  exact expandLocales_nodup_aux us [] List.nodup_nil

/-- C4: the `listValuesExpression` pipeline on the value list `"A;;B;C"`
with separator `" • "` renders `"A;B • C"` — the doubled delimiter `;;`
decodes to a literal `;` inside the first value and the remaining single
`;` becomes the separator. -/
theorem c4_listValues_example :
    EvalTo [] [] (listValuesExpression (.str "A;;B;C") (.str " • ")) (.str "A;B • C") :=
  ⟨400, by decide⟩

/-! ## The bilingual gloss composer on "Montreal" / "Montréal" (C3)

The source comment says "Only perform diacritic folding in English": the
`diacriticInsensitiveCollator` installed by `localizeLayers` is
diacritic-insensitive exactly when `/^en\\b/` matches the first locale.  The
prefix-overwrite branch therefore fires for an *English* preferred locale;
for a non-English locale (the claim as stated) the comparison stays
diacritic-sensitive, no branch matches, and the parenthetical gloss is
rendered instead. -/

/-- Counterexample to C3 as stated: with the non-English preferred locale
`"fr"`, localized name `"Montreal"` and local name `"Montréal"`, the
localized `text-field` does not evaluate to `"Montréal"`; it evaluates to
the branch-4 parenthetical gloss `"Montreal\n(\u200BM Montréal M\u200B)"`. -/
theorem c3_gloss_counterexample :
    ∃ tf, localizeLayers [glossLayer] ["fr"] = [⟨some "place", some tf⟩]
      ∧ ¬ EvalTo [] [("name:fr", .str "Montreal"), ("name", .str "Montréal")] tf
          (.str "Montréal")
      ∧ EvalTo [] [("name:fr", .str "Montreal"), ("name", .str "Montréal")] tf
          (.str "Montreal\n(\u200BM Montréal M\u200B)") := by
  have h6 : EvalTo [] [("name:fr", .str "Montreal"), ("name", .str "Montréal")]
      (localizeTextField localizedNameWithLocalGloss ["fr"] (some "place"))
      (.str "Montreal\n(\u200BM Montréal M\u200B)") := ⟨600, by decide⟩
  refine ⟨_, rfl, ?_, h6⟩
  intro hcontra
  have := evalTo_determ hcontra h6
  simp at this

/-- C3 (amended): with an *English* preferred locale (`locales = ["en"]`,
for which the installed `diacriticInsensitiveCollator` is case- and
diacritic-insensitive), localized name `"Montreal"` and local-language name
`"Montréal"`, the `startsWithExpression` prefix-match condition — a
case-insensitive, diacritic-insensitive comparison at a word boundary of
space, comma, or padded string end — holds, and the whole localized
`text-field` renders `"Montréal"`: the matched prefix span is overwritten
with the local-language spelling. -/
theorem c3_gloss_amended :
    ∃ tf, localizeLayers [glossLayer] ["en"] = [⟨some "place", some tf⟩]
      ∧ EvalTo [] [("name:en", .str "Montreal"), ("name", .str "Montréal")] tf
          (.str "Montréal")
      ∧ EvalTo [("localizedName", .str "Montreal"),
            ("diacriticInsensitiveCollator", .collator false false "en")]
          [("name", .str "Montréal")]
          (startsWithExpression (.arr [.str "var", .str "localizedName"])
            (.arr [.str "get", .str "name"])
            (.arr [.str "var", .str "diacriticInsensitiveCollator"]))
          (.bool true) :=
  ⟨_, rfl, ⟨600, by decide⟩, ⟨100, by decide⟩⟩

/-! ## Structure of the localized-name fallback expression (C5) -/

/-- Mapping in front of a flat-map. -/
theorem map_flatMap_helper {α β γ : Type} (f : α → β) (g : γ → List α) (l : List γ) :
    (l.flatMap g).map f = l.flatMap (fun x => (g x).map f) := by
  induction l with
  | nil => rfl
  | cons x xs ih => simp [List.flatMap_cons, ih]

/-- C5: for every locale chain and legacy-fields flag,
`getLocalizedNameExpression` is a `coalesce` call whose arguments are, in
order, one `["get", "name:<tag>"]` lookup per chain entry — with an extra
`["get", "name_<tag>"]` legacy lookup immediately after the primary lookup
exactly for the tags `"de"` and `"en"` when the flag is set — terminated by
the generic `["get", "name"]` lookup as the last argument. -/
theorem c5_getLocalizedNameExpression_structure (locales : List String) (flag : Bool) :
    getLocalizedNameExpression locales flag =
      .arr (.str "coalesce" ::
        ((locales.flatMap fun l =>
          JValue.arr [.str "get", .str ("name:" ++ l)] ::
            (if flag && (l == "de" || l == "en")
             then [JValue.arr [.str "get", .str ("name_" ++ l)]] else []))
          ++ [.arr [.str "get", .str "name"]])) := by
  have hfn : ∀ l : String,
      (List.map (fun f => JValue.arr [.str "get", .str f])
        (if (flag && (l == "de" || l == "en")) then ["name_" ++ l] else []))
      = (if (flag && (l == "de" || l == "en"))
         then [JValue.arr [.str "get", .str ("name_" ++ l)]] else []) := by
    intro l
    cases hc : (flag && (l == "de" || l == "en")) <;> simp [hc]
  simp only [getLocalizedNameExpression, List.map_append, map_flatMap_helper, List.map_cons,
    List.map_nil, hfn]

/-! ## Variable substitution (C6) -/

/-- Counterexample to C6 as stated: in
`["let", "a", "x", "x", "y", "b"]` the ordered pairs are `("a","x")` and
`("x","y")`, so the target name `"x"` occurs in a name position and the
claim requires its value slot to be overwritten — but `indexOf` finds the
earlier occurrence of `"x"` at even index 2 (the *value* of the first
pair), the parity test fails, and the tree is left unchanged. -/
theorem c6_updateVariable_counterexample :
    updateVariable (.arr [.str "let", .str "a", .str "x", .str "x", .str "y", .str "b"]) "x"
        (.str "Z")
      = .arr [.str "let", .str "a", .str "x", .str "x", .str "y", .str "b"]
    ∧ updateVariable (.arr [.str "let", .str "a", .str "x", .str "x", .str "y", .str "b"]) "x"
        (.str "Z")
      ≠ .arr [.str "let", .str "a", .str "x", .str "x", .str "Z", .str "b"] := by
  refine ⟨rfl, ?_⟩
  intro h
  rw [show updateVariable (.arr [.str "let", .str "a", .str "x", .str "x", .str "y", .str "b"]) "x"
      (.str "Z") = .arr [.str "let", .str "a", .str "x", .str "x", .str "y", .str "b"] from rfl] at h
  simp at h

/-- C6 (amended): `updateVariable` leaves any node that is not a `"let"`
array unchanged; on a `"let"` array it locates the *first* element equal to
the target name anywhere in the flat element list: if there is none, or the
first occurrence is at an even index (for example a binding *value* equal
to the name), the tree is unchanged; if it is at an odd index, the next
element is overwritten in place — or appended when the match is the final
element, the one case in which the operation grows the array. -/
theorem c6_updateVariable_amended (letE : JValue) (varName : String) (value : JValue) :
    ((∀ es, letE ≠ .arr (.str "let" :: es)) → updateVariable letE varName value = letE)
    ∧ (∀ es, letE = .arr (.str "let" :: es) →
        strIndexOfJ (.str "let" :: es) varName = none →
        updateVariable letE varName value = letE)
    ∧ (∀ es i, letE = .arr (.str "let" :: es) →
        strIndexOfJ (.str "let" :: es) varName = some i → i % 2 = 0 →
        updateVariable letE varName value = letE)
    ∧ (∀ es i, letE = .arr (.str "let" :: es) →
        strIndexOfJ (.str "let" :: es) varName = some i → i % 2 = 1 →
        i + 1 < (JValue.str "let" :: es).length →
        updateVariable letE varName value = .arr ((JValue.str "let" :: es).set (i + 1) value))
    ∧ (∀ es i, letE = .arr (.str "let" :: es) →
        strIndexOfJ (.str "let" :: es) varName = some i → i % 2 = 1 →
        i + 1 = (JValue.str "let" :: es).length →
        updateVariable letE varName value = .arr ((JValue.str "let" :: es) ++ [value])) := by
  refine ⟨?_, ?_, ?_, ?_, ?_⟩
  · intro hne
    cases letE with
    | arr es2 =>
      cases es2 with
      | nil => rfl
      | cons e0 rest =>
        cases e0 with
        | str s0 =>
          by_cases hs : s0 = "let"
          · subst hs; exact absurd rfl (hne rest)
          · simp [updateVariable, hs]
        | num n => rfl
        | dec m e => rfl
        | bool b => rfl
        | arr es3 => rfl
        | obj fs => rfl
    | str s => rfl
    | num n => rfl
    | dec m e => rfl
    | bool b => rfl
    | obj fs => rfl
  · intro es hE hnone
    subst hE
    simp [updateVariable, hnone]
  · intro es i hE hsome h0
    subst hE
    have h1 : ¬(i % 2 = 1) := by omega
    simp [updateVariable, hsome, h1]
  · intro es i hE hsome h1 hlt
    subst hE
    simp only [List.length_cons] at hlt
    simp [updateVariable, hsome, h1, hlt]
  · intro es i hE hsome h1 heq
    subst hE
    simp only [List.length_cons] at heq
    have hnlt : ¬(i + 1 < (JValue.str "let" :: es).length) := by
      simp only [List.length_cons]
      omega
    simp [updateVariable, hsome, h1, hnlt]
    intro hlt
    exfalso
    omega

/-- Witness for C6 (amended): in a well-formed binding list the first
occurrence of the variable is its name position, at odd index, and the
value slot after it is overwritten. -/
theorem c6_updateVariable_amended_witness :
    updateVariable (.arr [.str "let", .str "x", .str "v", .str "b"]) "x" (.num 5)
      = .arr [.str "let", .str "x", .num 5, .str "b"] := by
  have h := (c6_updateVariable_amended (.arr [.str "let", .str "x", .str "v", .str "b"]) "x" (.num 5)).2.2.2.1
  exact h [.str "x", .str "v", .str "b"] 1 rfl rfl (by decide) (by decide)

/-! ## Override parsing (C7) and collator configuration (C8) -/

/-- Counterexample to C7 as stated: an explicitly-present-but-empty
`language` override and an entirely absent one receive the *same* value
(`none`) from `getLanguageFromURL` — the claimed distinguishability does
not hold at this step, because the source maps `""` to `null` itself. -/
theorem c7_override_counterexample :
    getLanguageFromURL "#language=" = getLanguageFromURL "#"
    ∧ getLanguageFromURL "#language=" = none := by
  exact ⟨by decide, by decide⟩

/-- C7 (amended): the distinguishable values exist one step earlier, in the
underlying `URLSearchParams.get` (modeled by `urlParamsGet`): a present-but-
empty override yields `some ""` while an absent one yields `none`.
`getLanguageFromURL` deliberately normalizes `some ""` to `none`, so both
cases leave it indistinguishable and fall back to the agent locale list; a
non-empty override passes through unchanged. -/
theorem c7_override_amended :
    urlParamsGet "language=" "language" = some ""
    ∧ urlParamsGet "" "language" = none
    ∧ getLanguageFromURL "#language=" = none
    ∧ getLanguageFromURL "#" = none
    ∧ getLanguageFromURL "#language=pt,es" = some "pt,es" :=
  ⟨by decide, by decide, by decide, by decide, by decide⟩

/-- Localizing a canonical pre-declared `text-field` overwrites exactly the
three declared slots, whatever values they previously held. -/
theorem localizeTextField_canonical (v1 v2 v3 body : JValue) (locales : List String)
    (sl : Option String) :
    localizeTextField (canonicalTextField v1 v2 v3 body) locales sl
      = canonicalTextField
          (if sl == some "transportation_name" then getLocalizedNameExpression locales true
           else getLocalizedNameExpression locales false)
          (localizedCollatorExpr locales)
          (diacriticInsensitiveCollatorExpr locales) body := by
  obtain ⟨els1, h1⟩ : ∃ els, getLocalizedNameExpression locales true = .arr els := ⟨_, rfl⟩
  obtain ⟨els0, h0⟩ : ∃ els, getLocalizedNameExpression locales false = .arr els := ⟨_, rfl⟩
  by_cases hsl : (sl == some "transportation_name") = true
  · simp [localizeTextField, canonicalTextField, updateVariable, strIndexOfJ, hsl, h1,
      localizedCollatorExpr, diacriticInsensitiveCollatorExpr]
  · simp only [Bool.not_eq_true] at hsl
    simp [localizeTextField, canonicalTextField, updateVariable, strIndexOfJ, hsl, h0,
      localizedCollatorExpr, diacriticInsensitiveCollatorExpr]

/-- Characterization of the `/^en\\b/` test: it holds exactly for `"en"`
itself or `"en"` followed by a non-word character. -/
theorem regexEnBoundaryTest_iff (l0 : String) :
    regexEnBoundaryTest l0 = true ↔
      (l0 = "en" ∨ ∃ c t, l0.data = 'e' :: 'n' :: c :: t ∧ ¬(c.isAlphanum ∨ c = '_')) := by
  cases hl : l0 with
  | mk d =>
    cases d with
    | nil => simp [regexEnBoundaryTest]
    | cons c1 rest =>
      cases rest with
      | nil =>
        simp [regexEnBoundaryTest]
        intro h
        simp [String.ext_iff] at h
      | cons c2 t =>
        cases t with
        | nil =>
          simp [regexEnBoundaryTest, String.ext_iff]
        | cons c3 t2 =>
          simp [regexEnBoundaryTest, String.ext_iff]
          constructor
          · rintro ⟨⟨rfl, rfl⟩, hc⟩
            exact ⟨c3, ⟨rfl, rfl, rfl⟩, hc⟩
          · rintro ⟨c, ⟨rfl, rfl, rfl⟩, hc⟩
            exact ⟨⟨rfl, rfl⟩, hc⟩

/-- Counterexample to C8 as stated: `"eng"` begins with `"en"`, yet the
`diacriticInsensitiveCollator` installed for the chain `["eng"]` has
`diacritic-sensitive` `true`, not `false` — the code tests the regular
expression `/^en\\b/`, which requires a word boundary after `en`, not a mere
prefix. -/
theorem c8_collator_counterexample :
    (∃ t, "eng".data = 'e' :: 'n' :: t)
    ∧ localizeLayers
        [⟨none, some (canonicalTextField (.str "x1") (.str "x2") (.str "x3") (.str "bd"))⟩]
        ["eng"]
      = [⟨none, some (canonicalTextField (getLocalizedNameExpression ["eng"] false)
          (.arr [.str "collator", .obj [("case-sensitive", .bool false),
            ("diacritic-sensitive", .bool true), ("locale", .str "eng")]])
          (.arr [.str "collator", .obj [("case-sensitive", .bool false),
            ("diacritic-sensitive", .bool true), ("locale", .str "eng")]])
          (.str "bd"))⟩] :=
  ⟨⟨['g'], rfl⟩, rfl⟩

/-- C8 (amended): for every non-empty locale chain `l0 :: rest` and every
layer with a canonical pre-declared `text-field`, `localizeLayers` installs
a `localizedCollator` with `case-sensitive` `false`, `diacritic-sensitive`
`true` and locale `l0`, and a `diacriticInsensitiveCollator` with
`case-sensitive` `false`, locale `l0`, and `diacritic-sensitive` `false`
exactly when `l0` is `"en"` or `"en"` followed by a non-word character
(the JavaScript `/^en\\b/` word-boundary test), `true` otherwise. -/
theorem c8_collator_amended (l0 : String) (rest : List String) (v1 v2 v3 body : JValue)
    (sl : Option String) :
    (∃ nameE, localizeLayers [⟨sl, some (canonicalTextField v1 v2 v3 body)⟩] (l0 :: rest)
        = [⟨sl, some (canonicalTextField nameE
            (.arr [.str "collator", .obj [("case-sensitive", .bool false),
              ("diacritic-sensitive", .bool true), ("locale", .str l0)]])
            (.arr [.str "collator", .obj [("case-sensitive", .bool false),
              ("diacritic-sensitive", .bool (!regexEnBoundaryTest l0)), ("locale", .str l0)]])
            body)⟩])
    ∧ ((!regexEnBoundaryTest l0) = false ↔
        (l0 = "en" ∨ ∃ c t, l0.data = 'e' :: 'n' :: c :: t ∧ ¬(c.isAlphanum ∨ c = '_'))) := by
  constructor
  · refine ⟨if sl == some "transportation_name" then getLocalizedNameExpression (l0 :: rest) true
      else getLocalizedNameExpression (l0 :: rest) false, ?_⟩
    simp only [localizeLayers, List.map_cons, List.map_nil]
    rw [localizeTextField_canonical]
    simp [localizedCollatorExpr, diacriticInsensitiveCollatorExpr]
  · rw [Bool.not_eq_false']
    exact regexEnBoundaryTest_iff l0

/-! ## Tree-depth bounds (C9) and re-localization (C10) -/

/-- Unfolding of one recursion level of `replaceExpressionN` for an
arbitrary needle. -/
theorem replaceExpressionN_succ (h n r sE : JValue) (K : Nat) :
    replaceExpressionN h n r sE (K + 1) =
      .arr [.str "case",
        .arr [.str ">=", .arr [.str "index-of", n, h, sE], .num 0],
        .arr [.str "concat",
          .arr [.str "slice", h, sE, .arr [.str "index-of", n, h, sE]],
          r,
          replaceExpressionN h n r
            (.arr [.str "+", .arr [.str "index-of", n, h, sE], needleLengthExpr n]) K],
        .arr [.str "slice", h, sE]] := rfl

/-- Depth of the needle-length sub-expression. -/
theorem needleLengthExpr_depth (n : JValue) : depth (needleLengthExpr n) ≤ 1 + depth n := by
  cases n <;> simp [needleLengthExpr, depth, depthList]

/-- Each recursion level of the bounded replacer adds at most four nesting
levels on top of the argument depths. -/
theorem replaceExpressionN_depth (h n r : JValue) : ∀ (K : Nat) (sE : JValue),
    depth (replaceExpressionN h n r sE K)
      ≤ 4 * (K + 1) + max (depth sE) (max (depth h) (max (depth n) (depth r))) := by
  intro K
  induction K with
  | zero =>
    intro sE
    simp only [replaceExpressionN_zero, depth, depthList]
    omega
  | succ K ih =>
    intro sE
    have hrec := ih (.arr [.str "+", .arr [.str "index-of", n, h, sE], needleLengthExpr n])
    have hlen := needleLengthExpr_depth n
    rw [replaceExpressionN_succ]
    simp only [depth, depthList] at hrec ⊢
    omega

/-- Unfolding lemma for `depth` on string leaves. -/
theorem depth_str (s : String) : depth (.str s) = 0 := by simp [depth]

/-- Unfolding lemma for `depth` on number leaves. -/
theorem depth_num (n : Int) : depth (.num n) = 0 := by simp [depth]

/-- Unfolding lemma for `depth` on arrays. -/
theorem depth_arr (es : List JValue) : depth (.arr es) = 1 + depthList es := by simp [depth]

/-- Unfolding lemma for `depthList` on the empty list. -/
theorem depthList_nil : depthList [] = 0 := by simp [depthList]

/-- Unfolding lemma for `depthList` on a cons cell. -/
theorem depthList_cons (e : JValue) (es : List JValue) :
    depthList (e :: es) = max (depth e) (depthList es) := by simp [depthList]

/-- Depth bound for the three-pass delimiter formatter, a constant derived
from `maxValueListLength` plus the depth of its two argument expressions. -/
theorem listValuesExpression_depth (v sep : JValue) :
    depth (listValuesExpression v sep)
      ≤ 4 * maxValueListLength + 4 + max (depth v) (depth sep) := by
  have hK : ((((9 : Nat) : Int)) - 1).toNat = 8 := by decide
  have h1 := replaceExpressionN_depth v (.str ";;") (.str "\x91￼\x92") 8 (.num 0)
  have h2 := replaceExpressionN_depth (.arr [.str "var", .str "safeValueList"]) (.str ";") sep
    8 (.num 0)
  have h3 := replaceExpressionN_depth (.arr [.str "var", .str "prettyValueList"])
    (.str "\x91￼\x92") (.str ";") 8 (.num 0)
  simp only [listValuesExpression, replaceExpression, hK, maxValueListLength]
  simp only [depth_arr, depthList_cons, depthList_nil, depth_str, depth_num] at h1 h2 h3 ⊢
  omega

/-- C9: the nesting depth of `replaceExpression` trees grows at most
linearly with the budget `K ≥ 0` — four levels per recursion step above
the argument depths — and for a literal haystack the bound does not depend
on the haystack at all (a string leaf has depth `0`, whatever its length);
consequently every `listValuesExpression` tree is bounded by a constant
derived from the static `maxValueListLength = 9` plus the depth of its two
argument expressions. -/
theorem c9_depth_linear :
    (∀ (h n r sE : JValue) (K : Nat),
      depth (replaceExpression h n r sE (K : Int))
        ≤ 4 * (K + 1) + max (depth sE) (max (depth h) (max (depth n) (depth r))))
    ∧ (∀ (H : String) (n r sE : JValue) (K : Nat),
      depth (replaceExpression (.str H) n r sE (K : Int))
        ≤ 4 * (K + 1) + max (depth sE) (max (depth n) (depth r)))
    ∧ (∀ v sep : JValue,
      depth (listValuesExpression v sep)
        ≤ 4 * maxValueListLength + 4 + max (depth v) (depth sep)) := by
  have hgen : ∀ (h n r sE : JValue) (K : Nat),
      depth (replaceExpression h n r sE (K : Int))
        ≤ 4 * (K + 1) + max (depth sE) (max (depth h) (max (depth n) (depth r))) := by
    intro h n r sE K
    simp only [replaceExpression, Int.toNat_natCast]
    exact replaceExpressionN_depth h n r K sE
  refine ⟨hgen, ?_, listValuesExpression_depth⟩
  intro H n r sE K
  have h2 := hgen (.str H) n r sE K
  simp only [depth_str] at h2
  omega

/-- C10: re-localization is last-write-wins.  For layers whose `text-field`
pre-declares the three localizable slots (the `canonicalTextField` shape of
the style's templates), localizing with `L1` and then with `L2` leaves the
layers exactly as localizing with `L2` alone: substitution is update-only
overwrite of the three declared slots, so the earlier locale leaves no
residue. -/
theorem c10_localize_last_write_wins (layers : List Layer) (L1 L2 : List String)
    (h : ∀ layer ∈ layers, ∀ tf, layer.textField = some tf →
      ∃ v1 v2 v3 body, tf = canonicalTextField v1 v2 v3 body) :
    localizeLayers (localizeLayers layers L1) L2 = localizeLayers layers L2 := by
  simp only [localizeLayers, List.map_map]
  apply List.map_congr_left
  intro layer hmem
  simp only [Function.comp_apply]
  cases htf : layer.textField with
  | none => simp [htf]
  | some tf =>
    obtain ⟨v1, v2, v3, body, rfl⟩ := h layer hmem tf htf
    simp [htf, localizeTextField_canonical]

/-- Witness for C10: the gloss layer template localized to French and then
to English equals the template localized to English alone. -/
theorem c10_localize_last_write_wins_witness :
    localizeLayers (localizeLayers [glossLayer] ["fr"]) ["en"]
      = localizeLayers [glossLayer] ["en"] := by
  apply c10_localize_last_write_wins
  intro layer hmem tf htf
  simp only [List.mem_singleton] at hmem
  subst hmem
  simp only [glossLayer] at htf
  obtain rfl : localizedNameWithLocalGloss = tf := by
    injection htf
  exact ⟨_, _, _, _, rfl⟩
